import Mathlib

/-!
# Verification of the dcpe-js cryptographic core

Shallow embedding of the dcpe-js library (Distance-Comparison-Preserving
Encryption for vector embeddings) and proofs about its behaviour.

Modelling conventions:
* Byte buffers (`Buffer`) are `List ℕ`, each entry a byte value `< 256`.
* JavaScript numbers are modelled by `JVal`: a rational (`JVal.num`) for
  every finite double, plus `inf`, `ninf`, `nan` for the non-finite values.
  Double rounding/overflow is not modelled; non-finite values still arise
  from non-finite inputs, which is what the claims exercise.
* Randomness (IVs, noise samples) is passed explicitly as parameters, so
  stateful CSPRNG draws become explicit data.
* Thrown exceptions are modelled by `Except JsError`, with one `JsError`
  constructor per exception class that the modelled code paths can throw.
* SHA-256 / HMAC-SHA-256 / HKDF are implemented concretely, following
  FIPS 180-4 / RFC 2104 and the repository's `crypto/hkdf.js`.
-/

/-! ## Bytes and 32-bit word helpers -/

/-- Truncate to a 32-bit word (JavaScript `>>> 0` style wraparound). -/
def w32 (x : ℕ) : ℕ := x % 4294967296

/-- Big-endian 4-byte serialisation of a 32-bit word
(`Buffer.writeUInt32BE`). -/
def be32 (x : ℕ) : List ℕ :=
  [x / 16777216 % 256, x / 65536 % 256, x / 256 % 256, x % 256]

/-- Big-endian 8-byte serialisation of a 64-bit length field. -/
def be64 (x : ℕ) : List ℕ :=
  [x / 72057594037927936 % 256, x / 281474976710656 % 256,
   x / 1099511627776 % 256, x / 4294967296 % 256,
   x / 16777216 % 256, x / 65536 % 256, x / 256 % 256, x % 256]

/-- `Buffer.readUInt32BE(0)`: first four bytes, big-endian. -/
def readUInt32BE (b : List ℕ) : ℕ :=
  b.getD 0 0 * 16777216 + b.getD 1 0 * 65536 + b.getD 2 0 * 256 + b.getD 3 0

/-- `Buffer.readUInt32LE(0)`: first four bytes, little-endian. -/
def readUInt32LE (b : List ℕ) : ℕ :=
  b.getD 0 0 + b.getD 1 0 * 256 + b.getD 2 0 * 65536 + b.getD 3 0 * 16777216

/-- 32-bit right rotation. -/
def rotr32 (n x : ℕ) : ℕ := w32 ((x >>> n) ||| (x <<< (32 - n)))

/-! ## SHA-256 (FIPS 180-4), as used by Node's `crypto.createHmac('sha256', k)` -/

/-- The eight working variables of the SHA-256 compression function. -/
structure Sha256State where
  a : ℕ
  b : ℕ
  c : ℕ
  d : ℕ
  e : ℕ
  f : ℕ
  g : ℕ
  h : ℕ
deriving Repr, DecidableEq

/-- SHA-256 initial hash value (FIPS 180-4, in decimal). -/
def sha256H0 : Sha256State :=
  ⟨1779033703, 3144134277, 1013904242, 2773480762,
   1359893119, 2600822924, 528734635, 1541459225⟩

/-- SHA-256 round constants (FIPS 180-4, in decimal). -/
def sha256K : List ℕ :=
  [1116352408, 1899447441, 3049323471, 3921009573, 961987163,
   1508970993, 2453635748, 2870763221, 3624381080, 310598401,
   607225278, 1426881987, 1925078388, 2162078206, 2614888103,
   3248222580, 3835390401, 4022224774, 264347078, 604807628,
   770255983, 1249150122, 1555081692, 1996064986, 2554220882,
   2821834349, 2952996808, 3210313671, 3336571891, 3584528711,
   113926993, 338241895, 666307205, 773529912, 1294757372,
   1396182291, 1695183700, 1986661051, 2177026350, 2456956037,
   2730485921, 2820302411, 3259730800, 3345764771, 3516065817,
   3600352804, 4094571909, 275423344, 430227734, 506948616,
   659060556, 883997877, 958139571, 1322822218, 1537002063,
   1747873779, 1955562222, 2024104815, 2227730452, 2361852424,
   2428436474, 2756734187, 3204031479, 3329325298]

/-- SHA-256 message padding: append `0x80`, zero bytes and the 64-bit
bit length, reaching a multiple of 64 bytes. -/
def sha256Pad (msg : List ℕ) : List ℕ :=
  msg ++ [0x80] ++ List.replicate ((119 - msg.length % 64) % 64) 0
      ++ be64 (8 * msg.length)

/-- Split a byte list into 64-byte chunks. -/
def chunks64 : ℕ → List ℕ → List (List ℕ)
  | 0, _ => []
  | fuel + 1, l => if l.length = 0 then [] else l.take 64 :: chunks64 fuel (l.drop 64)

/-- The 64-entry message schedule of one SHA-256 block. -/
def sha256Schedule (block : List ℕ) : ℕ → List ℕ
  | 0 => []
  | t + 1 =>
    let w := sha256Schedule block t
    let next :=
      if t < 16 then readUInt32BE (block.drop (4 * t))
      else
        let s0 := rotr32 7 (w.getD (t - 15) 0) ^^^ rotr32 18 (w.getD (t - 15) 0) ^^^
                  (w.getD (t - 15) 0 >>> 3)
        let s1 := rotr32 17 (w.getD (t - 2) 0) ^^^ rotr32 19 (w.getD (t - 2) 0) ^^^
                  (w.getD (t - 2) 0 >>> 10)
        w32 (w.getD (t - 16) 0 + s0 + w.getD (t - 7) 0 + s1)
    w ++ [next]

/-- One SHA-256 compression round. -/
def sha256Round (w : List ℕ) (st : Sha256State) (t : ℕ) : Sha256State :=
  let S1 := rotr32 6 st.e ^^^ rotr32 11 st.e ^^^ rotr32 25 st.e
  let ch := (st.e &&& st.f) ^^^ ((0xffffffff ^^^ st.e) &&& st.g)
  let temp1 := w32 (st.h + S1 + ch + sha256K.getD t 0 + w.getD t 0)
  let S0 := rotr32 2 st.a ^^^ rotr32 13 st.a ^^^ rotr32 22 st.a
  let maj := (st.a &&& st.b) ^^^ (st.a &&& st.c) ^^^ (st.b &&& st.c)
  let temp2 := w32 (S0 + maj)
  ⟨w32 (temp1 + temp2), st.a, st.b, st.c, w32 (st.d + temp1), st.e, st.f, st.g⟩

/-- Compress one 64-byte block into the running hash state. -/
def sha256Compress (st : Sha256State) (block : List ℕ) : Sha256State :=
  let w := sha256Schedule block 64
  let r := (List.range 64).foldl (sha256Round w) st
  ⟨w32 (st.a + r.a), w32 (st.b + r.b), w32 (st.c + r.c), w32 (st.d + r.d),
   w32 (st.e + r.e), w32 (st.f + r.f), w32 (st.g + r.g), w32 (st.h + r.h)⟩

/-- SHA-256 digest of a byte list: 32 bytes. -/
def sha256 (msg : List ℕ) : List ℕ :=
  let padded := sha256Pad msg
  let final := (chunks64 (padded.length / 64 + 1) padded).foldl sha256Compress sha256H0
  be32 final.a ++ be32 final.b ++ be32 final.c ++ be32 final.d ++
  be32 final.e ++ be32 final.f ++ be32 final.g ++ be32 final.h

/-- HMAC-SHA-256 (RFC 2104), as `crypto.createHmac('sha256', key)`. -/
def hmacSha256 (key msg : List ℕ) : List ℕ :=
  let k0 := if 64 < key.length then sha256 key else key
  let kp := k0 ++ List.replicate (64 - k0.length) 0
  let ipad := kp.map (fun b => b ^^^ 0x36)
  let opad := kp.map (fun b => b ^^^ 0x5c)
  sha256 (opad ++ sha256 (ipad ++ msg))

/-- `sha256` always produces exactly 32 bytes. -/
theorem sha256_length (msg : List ℕ) : (sha256 msg).length = 32 := by
  simp [sha256, be32]

/-- `hmacSha256` always produces exactly 32 bytes. -/
theorem hmacSha256_length (key msg : List ℕ) : (hmacSha256 key msg).length = 32 := by
  simp [hmacSha256, sha256_length]

/-- Every byte of a `be32` serialisation is `< 256`. -/
theorem be32_lt (x : ℕ) : ∀ b ∈ be32 x, b < 256 := by
  simp only [be32, List.mem_cons, List.not_mem_nil, or_false]
  rintro b (rfl | rfl | rfl | rfl) <;> exact Nat.mod_lt _ (by norm_num)

/-- Every byte of a SHA-256 digest is `< 256`. -/
theorem sha256_bytes_lt (msg : List ℕ) : ∀ b ∈ sha256 msg, b < 256 := by
  intro b hb
  simp only [sha256, List.mem_append] at hb
  rcases hb with ((((((h | h) | h) | h) | h) | h) | h) | h <;> exact be32_lt _ _ h

/-- Every byte of an HMAC-SHA-256 digest is `< 256`. -/
theorem hmacSha256_bytes_lt (key msg : List ℕ) : ∀ b ∈ hmacSha256 key msg, b < 256 := by
  intro b hb
  exact sha256_bytes_lt _ _ hb

/-! ## Keyed deterministic shuffle (`crypto/index.js`: `createRngFromKey`,
`shuffle`, `unshuffle`) -/

/-- `createRngFromKey(key)` from `crypto/index.js`: the `k`-th draw is
`HMAC-SHA-256(key, [counter & 0xFF]).readUInt32LE(0) / 2^32`, with the
one-byte counter starting at 0 and incremented per call. -/
def rngFromKey (key : List ℕ) (k : ℕ) : ℚ :=
  (readUInt32LE (hmacSha256 key [k % 256]) : ℚ) / 4294967296

/-- The destructuring swap `[l[i], l[j]] = [l[j], l[i]]`. -/
def swapAt (l : List ℕ) (i j : ℕ) : List ℕ :=
  (l.set i (l.getD j 0)).set j (l.getD i 0)

/-- One iteration of the Fisher–Yates loop in `shuffle`: at loop counter
`k` the index is `i = n-1-k` and `j = Math.floor(rng() * (i+1))`. -/
def fyStep (r : ℕ → ℚ) (n : ℕ) (l : List ℕ) (k : ℕ) : List ℕ :=
  let i := n - 1 - k
  let j := (⌊r k * (i + 1)⌋).toNat
  swapAt l i j

/-- The shuffled index array built by the loop
`for (i = n-1; i > 0; i--) { j = floor(rng()*(i+1)); swap }`. -/
def fyIndices (r : ℕ → ℚ) (n : ℕ) : List ℕ :=
  (List.range (n - 1)).foldl (fyStep r n) (List.range n)

/-- `shuffle` from `crypto/index.js`, with the keyed RNG abstracted as the
stream `r` of its successive outputs. -/
def shuffleWith {α : Type} [Inhabited α] (r : ℕ → ℚ) (x : List α) : List α :=
  (fyIndices r x.length).map (fun i => x.getD i default)

/-- The `reverseMap` array of `unshuffle`: `reverseMap[indices[i]] = i`. -/
def buildReverseMap (p : List ℕ) : List ℕ :=
  (List.range p.length).foldl (fun rm i => rm.set (p.getD i 0) i)
    (List.replicate p.length 0)

/-- `unshuffle` from `crypto/index.js`: regenerate the permutation, invert
it via `reverseMap`, and map `i ↦ shuffled[reverseMap[i]]`. -/
def unshuffleWith {α : Type} [Inhabited α] (r : ℕ → ℚ) (y : List α) : List α :=
  let rm := buildReverseMap (fyIndices r y.length)
  (List.range y.length).map (fun i => y.getD (rm.getD i 0) default)

/-- `shuffle(key, x)`: deterministic keyed Fisher–Yates. -/
def shuffle {α : Type} [Inhabited α] (key : List ℕ) (x : List α) : List α :=
  shuffleWith (rngFromKey key) x

/-- `unshuffle(key, y)`: inverse of `shuffle(key, ·)`. -/
def unshuffle {α : Type} [Inhabited α] (key : List ℕ) (y : List α) : List α :=
  unshuffleWith (rngFromKey key) y

/-- Bytes below 256 have `getD _ 0` below 256. -/
theorem getD_lt_256 (l : List ℕ) (i : ℕ) (hl : ∀ b ∈ l, b < 256) :
    l.getD i 0 < 256 := by
  rcases lt_or_ge i l.length with h | h
  · rw [List.getD_eq_getElem l 0 h]; exact hl _ (l.getElem_mem h)
  · rw [List.getD_eq_default l 0 h]; norm_num

/-- Each output of the keyed RNG lies in `[0, 1)`. -/
theorem rngFromKey_mem (key : List ℕ) (k : ℕ) :
    0 ≤ rngFromKey key k ∧ rngFromKey key k < 1 := by
  have hb := hmacSha256_bytes_lt key [k % 256]
  set d := hmacSha256 key [k % 256] with hd
  have h0 : d.getD 0 0 < 256 := getD_lt_256 _ _ hb
  have h1 : d.getD 1 0 < 256 := getD_lt_256 _ _ hb
  have h2 : d.getD 2 0 < 256 := getD_lt_256 _ _ hb
  have h3 : d.getD 3 0 < 256 := getD_lt_256 _ _ hb
  have hv : readUInt32LE d < 4294967296 := by
    unfold readUInt32LE
    omega
  constructor
  · unfold rngFromKey
    positivity
  · unfold rngFromKey
    rw [div_lt_one (by norm_num), ← hd]
    exact_mod_cast hv

/-- A permutation of `ℕ` that fixes everything at or above `n` maps
`[0, n)` into `[0, n)`. -/
theorem perm_lt_of_fixes (σ : Equiv.Perm ℕ) (n : ℕ) (hfix : ∀ m, n ≤ m → σ m = m)
    {m : ℕ} (hm : m < n) : σ m < n := by
  by_contra h
  push_neg at h
  have := hfix (σ m) h
  have : σ m = m := σ.injective this
  omega

/-- Reading a mapped range at an in-range position. -/
theorem getD_map_range {α : Type} (σ : ℕ → α) {n m : ℕ} (hm : m < n) (d : α) :
    ((List.range n).map σ).getD m d = σ m := by
  rw [List.getD_eq_getElem _ d (by simpa using hm)]
  simp

/-- Reading a mapped list at an in-range position. -/
theorem getD_map_lt {α β : Type} (f : α → β) (l : List α) {i : ℕ}
    (h : i < l.length) (d : β) (d' : α) :
    (l.map f).getD i d = f (l.getD i d') := by
  rw [List.getD_eq_getElem _ d (by simpa using h), List.getD_eq_getElem _ d' h,
    List.getElem_map]

/-- Swapping two in-range entries of a mapped range composes the map with
a transposition. -/
theorem swapAt_map_range (σ : Equiv.Perm ℕ) {n i j : ℕ} (hi : i < n) (hj : j < n) :
    swapAt ((List.range n).map σ) i j =
      (List.range n).map ((Equiv.swap i j).trans σ) := by
  apply List.ext_getElem (by simp [swapAt])
  intro m h1 h2
  simp only [swapAt] at h1 ⊢
  simp only [List.length_set, List.length_map, List.length_range] at h1
  rw [List.getElem_set, List.getElem_set]
  simp only [getD_map_range σ hi, getD_map_range σ hj]
  simp only [List.getElem_map, List.getElem_range]
  rcases eq_or_ne j m with rfl | hjm
  · simp [Equiv.swap_apply_right]
  · rcases eq_or_ne i m with rfl | him
    · simp [hjm, Equiv.swap_apply_left]
    · simp [hjm, him, Equiv.swap_apply_of_ne_of_ne (Ne.symm him) (Ne.symm hjm)]

/-- The partial Fisher–Yates fold is a mapped range for a permutation
fixing `[n, ∞)`. -/
theorem fyFold_rep (r : ℕ → ℚ) (n : ℕ) (hr : ∀ k, 0 ≤ r k ∧ r k < 1) :
    ∀ m, m ≤ n - 1 →
      ∃ σ : Equiv.Perm ℕ, (∀ t, n ≤ t → σ t = t) ∧
        (List.range m).foldl (fyStep r n) (List.range n) = (List.range n).map σ := by
  intro m
  induction m with
  | zero =>
    intro _
    exact ⟨Equiv.refl ℕ, fun t _ => rfl, by simp⟩
  | succ m ih =>
    intro hm
    obtain ⟨σ, hfix, hrep⟩ := ih (by omega)
    rw [List.range_succ, List.foldl_append, hrep]
    have hi : n - 1 - m < n := by omega
    have hj : (⌊r m * (((n - 1 - m : ℕ) : ℚ) + 1)⌋).toNat < n := by
      obtain ⟨h0, h1⟩ := hr m
      have hpos : (0:ℚ) < ((n - 1 - m : ℕ) : ℚ) + 1 := by positivity
      have hle : r m * (((n - 1 - m : ℕ) : ℚ) + 1) < ((n - 1 - m : ℕ) : ℚ) + 1 := by
        calc r m * (((n - 1 - m : ℕ) : ℚ) + 1)
            < 1 * (((n - 1 - m : ℕ) : ℚ) + 1) := mul_lt_mul_of_pos_right h1 hpos
          _ = ((n - 1 - m : ℕ) : ℚ) + 1 := one_mul _
      have hfl : ⌊r m * (((n - 1 - m : ℕ) : ℚ) + 1)⌋ < (n - 1 - m : ℕ) + 1 := by
        apply Int.floor_lt.mpr
        push_cast
        exact hle
      omega
    refine ⟨(Equiv.swap (n - 1 - m) ((⌊r m * (((n - 1 - m : ℕ) : ℚ) + 1)⌋).toNat)).trans σ,
      ?_, ?_⟩
    · intro t ht
      have h1 : Equiv.swap (n - 1 - m) ((⌊r m * (((n - 1 - m : ℕ) : ℚ) + 1)⌋).toNat) t = t :=
        Equiv.swap_apply_of_ne_of_ne (by omega) (by omega)
      simp only [Equiv.trans_apply, h1]
      exact hfix t ht
    · simp only [List.foldl_cons, List.foldl_nil, fyStep]
      exact swapAt_map_range σ hi hj

/-- `fyIndices` is the range `[0, n)` rearranged by a permutation that
fixes `[n, ∞)`. -/
theorem fyIndices_rep (r : ℕ → ℚ) (n : ℕ) (hr : ∀ k, 0 ≤ r k ∧ r k < 1) :
    ∃ σ : Equiv.Perm ℕ, (∀ t, n ≤ t → σ t = t) ∧
      fyIndices r n = (List.range n).map σ :=
  fyFold_rep r n hr (n - 1) le_rfl

/-- The inverse of a permutation fixing `[n, ∞)` also fixes `[n, ∞)`. -/
theorem perm_symm_fixes (σ : Equiv.Perm ℕ) (n : ℕ) (hfix : ∀ m, n ≤ m → σ m = m) :
    ∀ m, n ≤ m → σ.symm m = m := by
  intro m hm
  have : σ m = m := hfix m hm
  calc σ.symm m = σ.symm (σ m) := by rw [this]
    _ = m := σ.symm_apply_apply m

/-- The partial `reverseMap` fold: after processing `[0, m)`, slot `t`
holds `σ.symm t` when `σ.symm t < m`, else the initial `0`. -/
theorem buildReverseMap_fold (σ : Equiv.Perm ℕ) (n : ℕ)
    (hfix : ∀ m, n ≤ m → σ m = m) :
    ∀ m, m ≤ n →
      ((List.range m).foldl (fun rm i => rm.set (((List.range n).map σ).getD i 0) i)
          (List.replicate n 0)).length = n ∧
      ∀ t, t < n →
        ((List.range m).foldl (fun rm i => rm.set (((List.range n).map σ).getD i 0) i)
            (List.replicate n 0)).getD t 0 =
          if σ.symm t < m then σ.symm t else 0 := by
  intro m
  induction m with
  | zero =>
    intro _
    refine ⟨by simp, fun t ht => ?_⟩
    rw [List.getD_eq_getElem _ 0 (by simpa using ht)]
    simp
  | succ m ih =>
    intro hm
    obtain ⟨hlen, hget⟩ := ih (by omega)
    rw [List.range_succ, List.foldl_append]
    simp only [List.foldl_cons, List.foldl_nil]
    rw [getD_map_range (fun i => σ i) (by omega : m < n)]
    refine ⟨by simpa using hlen, fun t ht => ?_⟩
    have hσm : σ m < n := perm_lt_of_fixes σ n hfix (by omega)
    rw [List.getD_eq_getElem _ 0 (by rw [List.length_set, hlen]; exact ht)]
    rw [List.getElem_set]
    rcases eq_or_ne (σ m) t with heq | hne
    · have : σ.symm t = m := by rw [← heq, σ.symm_apply_apply]
      simp [heq, this]
    · have h1 : σ.symm t ≠ m := by
        intro h
        exact hne (by rw [← h, σ.apply_symm_apply])
      rw [if_neg hne, ← List.getD_eq_getElem _ 0 (by omega), hget t ht]
      rcases lt_or_ge (σ.symm t) m with h2 | h2
      · rw [if_pos h2, if_pos (by omega)]
      · rw [if_neg (by omega), if_neg (by omega)]

/-- `buildReverseMap` computes the inverse permutation on `[0, n)`. -/
theorem buildReverseMap_getD (σ : Equiv.Perm ℕ) (n : ℕ)
    (hfix : ∀ m, n ≤ m → σ m = m) {t : ℕ} (ht : t < n) :
    (buildReverseMap ((List.range n).map σ)).getD t 0 = σ.symm t := by
  have hs : σ.symm t < n := perm_lt_of_fixes σ.symm n (perm_symm_fixes σ n hfix) ht
  have := (buildReverseMap_fold σ n hfix n le_rfl).2 t ht
  rw [if_pos hs] at this
  unfold buildReverseMap
  simpa using this

/-- `shuffleWith` in mapped-range form. -/
theorem shuffleWith_rep {α : Type} [Inhabited α] (r : ℕ → ℚ)
    (hr : ∀ k, 0 ≤ r k ∧ r k < 1) (x : List α) :
    ∃ σ : Equiv.Perm ℕ, (∀ t, x.length ≤ t → σ t = t) ∧
      fyIndices r x.length = (List.range x.length).map σ ∧
      shuffleWith r x = (List.range x.length).map (fun m => x.getD (σ m) default) := by
  obtain ⟨σ, hfix, hrep⟩ := fyIndices_rep r x.length hr
  exact ⟨σ, hfix, hrep, by rw [shuffleWith, hrep, List.map_map]; rfl⟩

/-- Shuffling preserves length. -/
theorem shuffleWith_length {α : Type} [Inhabited α] (r : ℕ → ℚ)
    (hr : ∀ k, 0 ≤ r k ∧ r k < 1) (x : List α) :
    (shuffleWith r x).length = x.length := by
  obtain ⟨σ, _, _, hs⟩ := shuffleWith_rep r hr x
  rw [hs]
  simp

/-- Unshuffling inverts shuffling, for any RNG stream with values in
`[0, 1)`. -/
theorem unshuffleWith_shuffleWith {α : Type} [Inhabited α] (r : ℕ → ℚ)
    (hr : ∀ k, 0 ≤ r k ∧ r k < 1) (x : List α) :
    unshuffleWith r (shuffleWith r x) = x := by
  obtain ⟨σ, hfix, hrep, hs⟩ := shuffleWith_rep r hr x
  have hlen : (shuffleWith r x).length = x.length := by rw [hs]; simp
  unfold unshuffleWith
  rw [hlen, hrep]
  apply List.ext_getElem (by simp)
  intro i h1 h2
  simp only [List.length_map, List.length_range] at h1
  simp only [List.getElem_map, List.getElem_range]
  rw [buildReverseMap_getD σ x.length hfix h1]
  have hsi : σ.symm i < x.length :=
    perm_lt_of_fixes σ.symm x.length (perm_symm_fixes σ x.length hfix) h1
  rw [hs, getD_map_range (fun m => x.getD (σ m) default) hsi]
  rw [σ.apply_symm_apply]
  exact List.getD_eq_getElem x default h1

/-- The shuffle rearranges positions only: it commutes with any map on
the contents. -/
theorem shuffleWith_map {α β : Type} [Inhabited α] [Inhabited β] (r : ℕ → ℚ)
    (hr : ∀ k, 0 ≤ r k ∧ r k < 1) (f : α → β) (x : List α) :
    shuffleWith r (x.map f) = (shuffleWith r x).map f := by
  obtain ⟨σ, hfix, hrep, hs⟩ := shuffleWith_rep r hr x
  unfold shuffleWith
  rw [List.length_map, hrep]
  simp only [List.map_map]
  apply List.map_congr_left
  intro m hm
  have hmn : m < x.length := List.mem_range.mp hm
  have hσ : σ m < x.length := perm_lt_of_fixes σ x.length hfix hmn
  simp only [Function.comp_apply]
  exact getD_map_lt f x hσ default default

/-- Pointwise description of the shuffled list. -/
theorem shuffleWith_getD {α : Type} [Inhabited α] (r : ℕ → ℚ)
    (hr : ∀ k, 0 ≤ r k ∧ r k < 1) (x : List α) :
    ∃ σ : Equiv.Perm ℕ, (∀ t, x.length ≤ t → σ t = t) ∧
      (∀ m, m < x.length → σ m < x.length) ∧
      (∀ m, m < x.length → (shuffleWith r x).getD m default = x.getD (σ m) default) := by
  obtain ⟨σ, hfix, hrep, hs⟩ := shuffleWith_rep r hr x
  refine ⟨σ, hfix, fun m hm => perm_lt_of_fixes σ x.length hfix hm, fun m hm => ?_⟩
  rw [hs, getD_map_range (fun m => x.getD (σ m) default) hm]

/-- `rngFromKey` streams satisfy the `[0, 1)` bound, so the keyed
`shuffle`/`unshuffle` pair inherits all stream-level lemmas. -/
theorem rngFromKey_bounds (key : List ℕ) : ∀ k, 0 ≤ rngFromKey key k ∧ rngFromKey key k < 1 :=
  fun k => rngFromKey_mem key k

/-- `unshuffle(key, shuffle(key, x)) = x`. -/
theorem unshuffle_shuffle {α : Type} [Inhabited α] (key : List ℕ) (x : List α) :
    unshuffle key (shuffle key x) = x :=
  unshuffleWith_shuffleWith (rngFromKey key) (rngFromKey_bounds key) x

/-- `shuffle` preserves length. -/
theorem shuffle_length {α : Type} [Inhabited α] (key : List ℕ) (x : List α) :
    (shuffle key x).length = x.length :=
  shuffleWith_length (rngFromKey key) (rngFromKey_bounds key) x

/-! ## JavaScript numbers and the exception taxonomy -/

/-- A JavaScript number: a finite value (exact rational in this model) or
one of `Infinity`, `-Infinity`, `NaN`. -/
inductive JVal where
  | num (q : ℚ)
  | inf
  | ninf
  | nan
deriving DecidableEq, Repr

instance : Inhabited JVal := ⟨JVal.nan⟩

/-- `Number.isFinite`. -/
def JVal.isFinite : JVal → Bool
  | .num _ => true
  | _ => false

/-- IEEE negation. -/
def JVal.neg : JVal → JVal
  | .num q => .num (-q)
  | .inf => .ninf
  | .ninf => .inf
  | .nan => .nan

/-- IEEE addition on JavaScript numbers (signed zeros collapsed). -/
def jadd : JVal → JVal → JVal
  | .nan, _ => .nan
  | _, .nan => .nan
  | .inf, .ninf => .nan
  | .ninf, .inf => .nan
  | .inf, _ => .inf
  | _, .inf => .inf
  | .ninf, _ => .ninf
  | _, .ninf => .ninf
  | .num a, .num b => .num (a + b)

/-- IEEE multiplication on JavaScript numbers (signed zeros collapsed). -/
def jmul : JVal → JVal → JVal
  | .nan, _ => .nan
  | _, .nan => .nan
  | .num a, .inf => if a = 0 then .nan else if 0 < a then .inf else .ninf
  | .inf, .num a => if a = 0 then .nan else if 0 < a then .inf else .ninf
  | .num a, .ninf => if a = 0 then .nan else if 0 < a then .ninf else .inf
  | .ninf, .num a => if a = 0 then .nan else if 0 < a then .ninf else .inf
  | .inf, .inf => .inf
  | .inf, .ninf => .ninf
  | .ninf, .inf => .ninf
  | .ninf, .ninf => .inf
  | .num a, .num b => .num (a * b)

/-- IEEE subtraction. -/
def jsub (x y : JVal) : JVal := jadd x y.neg

/-- Division of a JavaScript number by a finite number `s`
(signed zeros collapsed; only the `s ≠ 0` branch is exercised by the
modelled code, which checks the scaling factor first). -/
def jdivq (x : JVal) (s : ℚ) : JVal :=
  if s = 0 then
    match x with
    | .num a => if a = 0 then .nan else if 0 < a then .inf else .ninf
    | .inf => .inf
    | .ninf => .ninf
    | .nan => .nan
  else
    match x with
    | .num a => .num (a / s)
    | .inf => if 0 < s then .inf else .ninf
    | .ninf => if 0 < s then .ninf else .inf
    | .nan => .nan

/-- The exceptions the modelled code paths can throw. `plain` is a bare
JavaScript `Error` (not part of the DCPE taxonomy); the remaining
constructors correspond to classes of `exceptions/index.js`, all of which
extend `DCPEError`. -/
inductive JsError where
  | plain (msg : String)
  | typeErr (msg : String)
  | invalidKey (msg : String)
  | invalidInput (msg : String)
  | decryptError (msg : String)
  | overflow (msg : String)
deriving DecidableEq, Repr

/-- Whether an error is an instance of `DCPEError` (the error taxonomy of
`exceptions/index.js`). Bare `Error`s and `TypeError`s are not. -/
def JsError.isDCPE : JsError → Bool
  | .plain _ => false
  | .typeErr _ => false
  | _ => true

/-! ## Key types (`keys/index.js`) -/

/-- `VectorEncryptionKey`: a scaling factor (a JavaScript number, finite
in this model) and raw encryption key bytes. -/
structure VectorEncryptionKey where
  scalingFactor : ℚ
  key : List ℕ
deriving DecidableEq, Repr

/-- `VectorEncryptionKey.unsafeBytesToKey` from `keys/index.js`: requires
at least 35 bytes; scaling factor is `readUInt32BE` of a zero byte
prepended to the first three bytes; key material is bytes 3..35. -/
def bytesToKey (keyBytes : List ℕ) : Except JsError VectorEncryptionKey :=
  if keyBytes.length < 35 then
    .error (.invalidKey "Key bytes must be at least 35 bytes long")
  else
    let scalingFactorBytes := keyBytes.take 3
    let keyMaterialBytes := (keyBytes.drop 3).take 32
    let paddedBytes := 0 :: scalingFactorBytes
    let scalingFactorU32 := readUInt32BE paddedBytes
    .ok ⟨(scalingFactorU32 : ℚ), keyMaterialBytes⟩

/-! ## Noise, authentication hash and the DCPE core
(`crypto/index.js`: `generateNoiseVector`, `computeAuthHash`,
`encryptVector`, `decryptVector`) -/

/-- Squared Euclidean norm of a rational vector. -/
def normSq (l : List ℚ) : ℚ := (l.map (fun x => x * x)).sum

/-- `generateNoiseVector(key, iv, approximationFactor, dimensionality)`
from `crypto/index.js`.

The input validation is translated exactly (the checks fire in source
order; `key` and `iv` are always present in this typed model, and a
rational `approximationFactor` is always `Number.isFinite`). The sampling
itself — Box–Muller normal draws, a uniform draw `u`, radius
`(s/4)·a·u^(1/d)` and normalisation to that radius — is real-valued
transcendental arithmetic, so the drawn noise vector is passed in as the
explicit parameter `sample`; theorems constrain `sample` to the
mathematical range of the sampler: a vector of length `d` whose squared
norm is at most `(s·a/4)²`. -/
def generateNoiseVector (key : VectorEncryptionKey) (iv : List ℕ) (a : ℚ)
    (d : ℕ) (sample : List JVal) : Except JsError (List JVal) :=
  if a ≤ 0 then .error (.plain "Approximation factor must be a positive number")
  else if d = 0 then .error (.plain "Dimensionality must be a positive integer")
  else
    let _ := key
    let _ := iv
    .ok sample

/-- Exact serialisation of a rational for hashing. Models the 4-byte
IEEE-754 binary32 little-endian serialisation
`Buffer.from(Float32Array.of(x).buffer)` in `computeAuthHash`; binary32
rounding is float behaviour outside the rational model, so the rational
is encoded exactly instead. No claim depends on the digest bytes, only on
the digest being a deterministic 32-byte function of its inputs. -/
def qSer (q : ℚ) : List ℕ :=
  (if q < 0 then [1] else [0]) ++ be64 q.num.natAbs ++ be64 q.den

/-- Serialisation of a JavaScript number for hashing (see `qSer`). -/
def jSer : JVal → List ℕ
  | .num q => 0 :: qSer q
  | .inf => [1]
  | .ninf => [2]
  | .nan => [3]

/-- `computeAuthHash(key, approximationFactor, iv, encryptedVector)`:
HMAC-SHA-256 over the scaling factor, the approximation factor, the IV
and the ciphertext coordinates. -/
def computeAuthHash (key : VectorEncryptionKey) (a : ℚ) (iv : List ℕ)
    (encryptedVector : List JVal) : List ℕ :=
  hmacSha256 key.key
    (qSer key.scalingFactor ++ qSer a ++ iv ++ encryptedVector.flatMap jSer)

/-- `encryptVector(key, approximationFactor, vector)` from
`crypto/index.js`. The fresh 12-byte IV from `crypto.randomBytes(12)` and
the noise sample are explicit parameters (see `generateNoiseVector`).
Returns `(ciphertext, iv, authHash)`. -/
def encryptVector (key : VectorEncryptionKey) (a : ℚ) (vector : List JVal)
    (iv : List ℕ) (sample : List JVal) :
    Except JsError (List JVal × List ℕ × List ℕ) :=
  if key.scalingFactor = 0 then
    .error (.invalidKey "Scaling factor cannot be zero")
  else
    match generateNoiseVector key iv a vector.length sample with
    | .error e => .error e
    | .ok noiseVector =>
      let ciphertext := (List.range vector.length).map
        (fun i => jadd (jmul (.num key.scalingFactor) (vector.getD i default))
          (noiseVector.getD i default))
      if ciphertext.all JVal.isFinite then
        .ok (ciphertext, iv, computeAuthHash key a iv ciphertext)
      else
        .error (.plain "Overflow error: Embedding or approximation factor too large.")

/-- `decryptVector(key, approximationFactor, encryptedResult)` from
`crypto/index.js`. The decrypt-side noise sample is an explicit parameter:
the source re-draws fresh noise from the CSPRNG rather than reproducing
the encrypt-side noise. -/
def decryptVector (key : VectorEncryptionKey) (a : ℚ) (ciphertext : List JVal)
    (iv : List ℕ) (authHash : List ℕ) (sample : List JVal) :
    Except JsError (List JVal) :=
  if key.scalingFactor = 0 then
    .error (.invalidKey "Scaling factor cannot be zero")
  else if computeAuthHash key a iv ciphertext ≠ authHash then
    .error (.decryptError "Authentication hash mismatch")
  else
    match generateNoiseVector key iv a ciphertext.length sample with
    | .error e => .error e
    | .ok noiseVector =>
      .ok ((List.range ciphertext.length).map
        (fun i => jdivq (jsub (ciphertext.getD i default)
          (noiseVector.getD i default)) key.scalingFactor))

/-! ## Header codec (`headers/index.js`) -/

/-- `EdekType` enumeration. -/
inductive EdekType where
  | standalone
  | saasShield
  | dataControlPlatform
deriving DecidableEq, Repr

/-- Index of an `EdekType` in `Object.values(EdekType)`. -/
def EdekType.index : EdekType → ℕ
  | .standalone => 0
  | .saasShield => 1
  | .dataControlPlatform => 2

/-- `Object.values(EdekType)[i]`, `none` when out of range. -/
def edekFromIndex : ℕ → Option EdekType
  | 0 => some .standalone
  | 1 => some .saasShield
  | 2 => some .dataControlPlatform
  | _ => none

/-- `PayloadType` enumeration. -/
inductive PayloadType where
  | deterministicField
  | vectorMetadata
  | standardEdek
deriving DecidableEq, Repr

/-- Index of a `PayloadType` in `Object.values(PayloadType)`. -/
def PayloadType.index : PayloadType → ℕ
  | .deterministicField => 0
  | .vectorMetadata => 1
  | .standardEdek => 2

/-- `Object.values(PayloadType)[i]`, `none` when out of range. -/
def payloadFromIndex : ℕ → Option PayloadType
  | 0 => some .deterministicField
  | 1 => some .vectorMetadata
  | 2 => some .standardEdek
  | _ => none

/-- `KeyIdHeader`: key id plus the two enumerations. The constructor
checks `keyId` is a number and the enum members are valid; both are
enforced by the types here. -/
structure KeyIdHeader where
  keyId : ℕ
  edekType : EdekType
  payloadType : PayloadType
deriving DecidableEq, Repr

/-- `KeyIdHeader.writeToBytes`: 4-byte big-endian key id, the packed type
byte `(edekIndex << 4) | payloadIndex`, and a zero padding byte.
(`writeUInt32BE` throws for a key id outside `[0, 2^32)`; claims restrict
to that range, on which `be32` agrees with it.) -/
def KeyIdHeader.writeToBytes (h : KeyIdHeader) : List ℕ :=
  be32 h.keyId ++ [(h.edekType.index <<< 4) ||| h.payloadType.index, 0]

/-- `KeyIdHeader.parseFromBytes`: requires exactly 6 bytes, a zero
padding byte and valid enum indices. -/
def KeyIdHeader.parseFromBytes (headerBytes : List ℕ) : Except JsError KeyIdHeader :=
  if headerBytes.length ≠ 6 then
    .error (.invalidInput "Header bytes must be 6 bytes long")
  else
    let keyId := readUInt32BE (headerBytes.take 4)
    let typeByte := headerBytes.getD 4 0
    let paddingByte := headerBytes.getD 5 0
    if paddingByte ≠ 0 then
      .error (.invalidInput "Padding byte in header is not zero")
    else
      match edekFromIndex ((typeByte &&& 0xF0) >>> 4),
            payloadFromIndex (typeByte &&& 0x0F) with
      | some edekType, some payloadType => .ok ⟨keyId, edekType, payloadType⟩
      | _, _ => .error (.invalidInput "Invalid type byte encoding")

/-- `encodeVectorMetadata(keyIdHeader, iv, authHash)`:
`header ‖ iv ‖ authHash` (`Buffer.concat`). -/
def encodeVectorMetadata (keyIdHeader : KeyIdHeader) (iv : List ℕ)
    (authHash : List ℕ) : List ℕ :=
  keyIdHeader.writeToBytes ++ iv ++ authHash

/-- `decodeVersionPrefixedValue(valueBytes)`: requires at least 6 bytes,
parses the leading header and returns it with the remaining bytes. -/
def decodeVersionPrefixedValue (valueBytes : List ℕ) :
    Except JsError (KeyIdHeader × List ℕ) :=
  if valueBytes.length < 6 then
    .error (.invalidInput "Value bytes too short to contain KeyIdHeader")
  else
    match KeyIdHeader.parseFromBytes (valueBytes.take 6) with
    | .error e => .error e
    | .ok keyIdHeader => .ok (keyIdHeader, valueBytes.drop 6)

/-! ## HKDF (`src/crypto/hkdf.js`) and the AEAD model -/

/-- The expand loop of `hkdf`: after `k` iterations, the pair of the last
block `T(k)` and the concatenation `T(1) ‖ … ‖ T(k)`, where
`T(i) = HMAC-SHA-256(prk, T(i-1) ‖ info ‖ [i])`. -/
def hkdfBlocks (prk info : List ℕ) : ℕ → List ℕ × List ℕ
  | 0 => ([], [])
  | k + 1 =>
    let p := hkdfBlocks prk info k
    let next := hmacSha256 prk (p.1 ++ info ++ [(k + 1) % 256])
    (next, p.2 ++ next)

/-- `hkdf(ikm, length, salt, info)` from `src/crypto/hkdf.js`:
extract `prk = HMAC(salt, ikm)`, then expand and truncate to `length`. -/
def hkdf (ikm : List ℕ) (len : ℕ) (salt info : List ℕ) : List ℕ :=
  let prk := hmacSha256 salt ikm
  (hkdfBlocks prk info ((len + 31) / 32)).2.take len

/-- The expand loop yields `32·k` bytes after `k` iterations. -/
theorem hkdfBlocks_length (prk info : List ℕ) (k : ℕ) :
    (hkdfBlocks prk info k).2.length = 32 * k := by
  induction k with
  | zero => rfl
  | succ k ih =>
    simp only [hkdfBlocks, List.length_append, ih, hmacSha256_length]
    ring

/-- `hkdf` returns exactly the requested number of bytes. -/
theorem hkdf_length (ikm : List ℕ) (len : ℕ) (salt info : List ℕ) :
    (hkdf ikm len salt info).length = len := by
  unfold hkdf
  rw [List.length_take, hkdfBlocks_length]
  have : len ≤ 32 * ((len + 31) / 32) := by omega
  omega

/-- Model of Node's `crypto.createCipheriv('aes-256-gcm', key, nonce)`
applied to a full plaintext (external library code, not part of this
repository): a deterministic AEAD in counter mode — the ciphertext is the
plaintext XORed with a keystream that depends only on `(key, nonce)`, so
it has exactly the plaintext's length, and the tag is 16 bytes determined
by `(key, nonce, ciphertext)`. The AES block cipher itself is modelled by
an HMAC-based pseudorandom function: the keystream byte values differ
from real AES, but the determinism and length structure — all that the
claims concern — are exact. -/
def aes256GcmEncrypt (key nonce pt : List ℕ) : List ℕ × List ℕ :=
  let ct := (List.range pt.length).map
    (fun i => pt.getD i 0 ^^^ (hmacSha256 key (nonce ++ be32 (i / 32))).getD (i % 32) 0)
  let tag := (hmacSha256 key (nonce ++ ct)).take 16
  (ct, tag)

/-- The modelled GCM ciphertext has the plaintext's length, and the tag
has 16 bytes. -/
theorem aes256GcmEncrypt_length (key nonce pt : List ℕ) :
    (aes256GcmEncrypt key nonce pt).1.length = pt.length ∧
    (aes256GcmEncrypt key nonce pt).2.length = 16 := by
  unfold aes256GcmEncrypt
  simp [hmacSha256_length]

/-! ## High-level client (`rag_encryption/index.js`: `RagEncryptionClient`) -/

/-- Code-unit bytes of an ASCII string (`Buffer.from(s)` /
`charCodeAt`; all string constants involved are ASCII, where UTF-8 bytes
and UTF-16 code units agree with the code points). -/
def strBytes (s : String) : List ℕ := s.data.map (fun c => c.toNat)

/-- The fields of a `RagEncryptionClient`. The `old*` fields model the
`_oldVectorEncryptionKey` / `_oldTextEncryptionKey` /
`_oldDeterministicEncryptionKey` properties that `rotateKey` creates
(`Option` because they are absent before the first rotation). The
`keyProvider` field is omitted: the claims settled here exercise the
direct key-material paths. -/
structure ClientState where
  vectorEncryptionKey : VectorEncryptionKey
  textEncryptionKey : List ℕ
  deterministicEncryptionKey : List ℕ
  approximationFactor : ℚ
  keyId : String
  oldVectorEncryptionKey : Option VectorEncryptionKey
  oldTextEncryptionKey : Option (List ℕ)
  oldDeterministicEncryptionKey : Option (List ℕ)
deriving DecidableEq, Repr

/-- `_initializeWithKey(encryptionKey, approximationFactor)`: requires a
buffer of at least 32 bytes (a rational approximation factor is always a
`number`), then builds the key triple from the same material, with the
scaling factor set to the approximation factor, and `keyId = "local-key"`. -/
def mkClientWithKey (encryptionKey : List ℕ) (approximationFactor : ℚ) :
    Except JsError ClientState :=
  if encryptionKey.length < 32 then
    .error (.invalidInput "Encryption key must be a Buffer of at least 32 bytes")
  else
    .ok { vectorEncryptionKey := ⟨approximationFactor, encryptionKey⟩
          textEncryptionKey := encryptionKey
          deterministicEncryptionKey := encryptionKey
          approximationFactor := approximationFactor
          keyId := "local-key"
          oldVectorEncryptionKey := none
          oldTextEncryptionKey := none
          oldDeterministicEncryptionKey := none }

/-- `rotateKey(newKeyMaterial)` (direct key-material path; the
key-provider path obtains `newKey` from the provider and then performs
the identical update). The source first stores the current triple into
the `_old*` properties, then validates and installs the new material;
on a validation error the `_old*` mutation has already happened, so the
result is returned as a state paired with an optional error. -/
def rotateKey (st : ClientState) (newKeyMaterial : List ℕ) :
    ClientState × Option JsError :=
  let st1 := { st with
    oldVectorEncryptionKey := some st.vectorEncryptionKey
    oldTextEncryptionKey := some st.textEncryptionKey
    oldDeterministicEncryptionKey := some st.deterministicEncryptionKey }
  if newKeyMaterial.length < 32 then
    (st1, some (.invalidInput "New key material must be a Buffer of at least 32 bytes"))
  else
    ({ st1 with
        vectorEncryptionKey := ⟨st.approximationFactor, newKeyMaterial⟩
        textEncryptionKey := newKeyMaterial
        deterministicEncryptionKey := newKeyMaterial }, none)

/-- `RagEncryptionClient.encryptVector(plaintextVector)`: shuffle with the
text key, encrypt with the vector key, and frame
`(keyIdHeader, iv, authHash)` as metadata. The key id is the string's
summed character codes modulo 9999. The IV and noise sample are explicit
parameters (see `encryptVector` and `generateNoiseVector`). -/
def clientEncryptVector (st : ClientState) (plaintextVector : List JVal)
    (iv : List ℕ) (sample : List JVal) :
    Except JsError (List JVal × List ℕ) :=
  let shuffledVector := shuffle st.textEncryptionKey plaintextVector
  match encryptVector st.vectorEncryptionKey st.approximationFactor
      shuffledVector iv sample with
  | .error e => .error e
  | .ok (ciphertext, iv2, authHash) =>
    let keyIdHeader : KeyIdHeader :=
      ⟨(strBytes st.keyId).sum % 9999, .standalone, .vectorMetadata⟩
    .ok (ciphertext, encodeVectorMetadata keyIdHeader iv2 authHash)

/-- `RagEncryptionClient.decryptVector(encryptedVector, pairedIclInfo)`:
decode the metadata, split off the 12-byte IV and the auth hash (the
`AuthHash` constructor requires exactly 32 bytes), decrypt, unshuffle. -/
def clientDecryptVector (st : ClientState) (encryptedVector : List JVal)
    (pairedIclInfo : List ℕ) (sample : List JVal) :
    Except JsError (List JVal) :=
  match decodeVersionPrefixedValue pairedIclInfo with
  | .error e => .error e
  | .ok hr =>
    let iv := hr.2.take 12
    let authHashBytes := hr.2.drop 12
    if authHashBytes.length ≠ 32 then
      .error (.plain "AuthHash must be 32 bytes long")
    else
      match decryptVector st.vectorEncryptionKey st.approximationFactor
          encryptedVector iv authHashBytes sample with
      | .error e => .error e
      | .ok shuffledVector => .ok (unshuffle st.textEncryptionKey shuffledVector)

/-- `RagEncryptionClient.encryptDeterministicText(plaintext)` applied to
the UTF-8 bytes of the plaintext: HKDF-derive a 32-byte subkey with the
fixed salt and info strings, take the first 12 bytes of
`HMAC-SHA-256(derivedKey, plaintext)` as the nonce, AES-256-GCM encrypt,
and return `nonce ‖ ciphertext ‖ tag`. Note the definition consumes no
randomness parameter: the source calls no CSPRNG on this path. -/
def encryptDeterministicText (st : ClientState) (plaintextUtf8 : List ℕ) :
    List ℕ :=
  let salt := strBytes "DCPE-Deterministic"
  let info := strBytes "deterministic_encryption_key"
  let derivedKey := hkdf st.deterministicEncryptionKey 32 salt info
  let deterministicNonce := (hmacSha256 derivedKey plaintextUtf8).take 12
  let ct := aes256GcmEncrypt derivedKey deterministicNonce plaintextUtf8
  deterministicNonce ++ ct.1 ++ ct.2

/-! ## Helper lemmas for the header codec -/

/-- Reading back a big-endian serialised 32-bit value. -/
theorem readUInt32BE_be32 (k : ℕ) (hk : k < 4294967296) :
    readUInt32BE (be32 k) = k := by
  simp only [readUInt32BE, be32, List.getD_cons_zero, List.getD_cons_succ]
  omega

/-- The header always serialises to 6 bytes. -/
theorem writeToBytes_length (h : KeyIdHeader) : h.writeToBytes.length = 6 := by
  simp [KeyIdHeader.writeToBytes, be32]

/-- The padding byte of a serialised header is zero. -/
theorem writeToBytes_padding (h : KeyIdHeader) : h.writeToBytes.getD 5 1 = 0 := by
  simp [KeyIdHeader.writeToBytes, be32]

/-- Parsing inverts serialisation for key ids in `[0, 2^32)`. -/
theorem parseFromBytes_writeToBytes (h : KeyIdHeader) (hk : h.keyId < 4294967296) :
    KeyIdHeader.parseFromBytes h.writeToBytes = .ok h := by
  obtain ⟨k, e, p⟩ := h
  replace hk : k < 4294967296 := hk
  have hread : readUInt32BE [k / 16777216 % 256, k / 65536 % 256, k / 256 % 256,
      k % 256] = k := by
    simp only [readUInt32BE, List.getD_cons_zero, List.getD_cons_succ]
    omega
  cases e <;> cases p <;>
    simp [KeyIdHeader.parseFromBytes, KeyIdHeader.writeToBytes, be32, EdekType.index,
      PayloadType.index, edekFromIndex, payloadFromIndex, hread]

/-- Decoding inverts metadata encoding: the header is recovered and the
remaining bytes are `iv ‖ authHash`. -/
theorem decode_encodeVectorMetadata (h : KeyIdHeader) (iv ah : List ℕ)
    (hk : h.keyId < 4294967296) :
    decodeVersionPrefixedValue (encodeVectorMetadata h iv ah) = .ok (h, iv ++ ah) := by
  unfold decodeVersionPrefixedValue encodeVectorMetadata
  have hlen : h.writeToBytes.length = 6 := writeToBytes_length h
  rw [List.append_assoc]
  have htake : (h.writeToBytes ++ (iv ++ ah)).take 6 = h.writeToBytes := by
    rw [← hlen, List.take_left]
  have hdrop : (h.writeToBytes ++ (iv ++ ah)).drop 6 = iv ++ ah := by
    rw [← hlen, List.drop_left]
  rw [if_neg (by simp [hlen])]
  rw [htake, hdrop, parseFromBytes_writeToBytes h hk]

/-! ## Further shuffle helpers -/

/-- Pointwise form of `shuffleWith`, given a representation of the index
permutation. -/
theorem shuffleWith_getD_of_rep {α : Type} [Inhabited α] (r : ℕ → ℚ)
    (σ : Equiv.Perm ℕ) (x : List α)
    (hrep : fyIndices r x.length = (List.range x.length).map σ)
    {m : ℕ} (hm : m < x.length) :
    (shuffleWith r x).getD m default = x.getD (σ m) default := by
  unfold shuffleWith
  rw [hrep, List.map_map]
  exact getD_map_range _ hm _

/-- Pointwise form of `unshuffleWith`, given a representation of the
index permutation. -/
theorem unshuffleWith_getD_of_rep {α : Type} [Inhabited α] (r : ℕ → ℚ)
    (σ : Equiv.Perm ℕ) (y : List α) (hfix : ∀ t, y.length ≤ t → σ t = t)
    (hrep : fyIndices r y.length = (List.range y.length).map σ)
    {m : ℕ} (hm : m < y.length) :
    (unshuffleWith r y).getD m default = y.getD (σ.symm m) default := by
  unfold unshuffleWith
  rw [hrep, getD_map_range _ hm, buildReverseMap_getD σ y.length hfix hm]

/-- `unshuffleWith` preserves length. -/
theorem unshuffleWith_length {α : Type} [Inhabited α] (r : ℕ → ℚ) (y : List α) :
    (unshuffleWith r y).length = y.length := by
  simp [unshuffleWith]

/-- The unshuffle rearranges positions only: it commutes with any map on
the contents. -/
theorem unshuffleWith_map {α β : Type} [Inhabited α] [Inhabited β] (r : ℕ → ℚ)
    (hr : ∀ k, 0 ≤ r k ∧ r k < 1) (f : α → β) (y : List α) :
    unshuffleWith r (y.map f) = (unshuffleWith r y).map f := by
  obtain ⟨σ, hfix, hrep⟩ := fyIndices_rep r y.length hr
  unfold unshuffleWith
  rw [List.length_map, hrep, List.map_map]
  apply List.map_congr_left
  intro i hi
  have hin : i < y.length := List.mem_range.mp hi
  simp only [Function.comp_apply]
  rw [buildReverseMap_getD σ y.length hfix hin]
  have hs : σ.symm i < y.length :=
    perm_lt_of_fixes σ.symm _ (perm_symm_fixes σ _ hfix) hin
  exact getD_map_lt f y hs default default

/-! ## Rational-input pipeline lemmas for the client vector roundtrip -/

/-- The header the client builds for its metadata. -/
def hdrOf (st : ClientState) : KeyIdHeader :=
  ⟨(strBytes st.keyId).sum % 9999, .standalone, .vectorMetadata⟩

/-- The ciphertext the client computes on all-finite input `v` with noise
sample `s1`: coordinate `i` is `s · shuffled(v)[i] + s1[i]`. -/
def ctQ (st : ClientState) (v s1 : List ℚ) : List ℚ :=
  (List.range v.length).map
    (fun i => st.vectorEncryptionKey.scalingFactor *
      (shuffle st.textEncryptionKey v).getD i 0 + s1.getD i 0)

/-- The shuffled-domain decryption result on decrypt-side noise `s2`:
coordinate `i` is `(ct[i] - s2[i]) / s`. -/
def wQ (st : ClientState) (v s1 s2 : List ℚ) : List ℚ :=
  (List.range v.length).map
    (fun i => ((ctQ st v s1).getD i 0 + -s2.getD i 0) / st.vectorEncryptionKey.scalingFactor)

/-- The key id folded from a string is always a valid `u32`. -/
theorem hdrOf_keyId_lt (st : ClientState) : (hdrOf st).keyId < 4294967296 := by
  have : (strBytes st.keyId).sum % 9999 < 9999 := Nat.mod_lt _ (by norm_num)
  simp only [hdrOf]
  omega

/-- On an all-finite plaintext with an all-finite noise sample of matching
length, the client's `encryptVector` succeeds and returns the rational
ciphertext `ctQ` with metadata framing `(header, iv, authHash)`. -/
theorem clientEncryptVector_rat (st : ClientState) (v s1 : List ℚ) (iv : List ℕ)
    (hs : st.vectorEncryptionKey.scalingFactor ≠ 0)
    (ha : 0 < st.approximationFactor)
    (hv : v ≠ [])
    (hs1 : s1.length = v.length) :
    clientEncryptVector st (v.map JVal.num) iv (s1.map JVal.num) =
      .ok ((ctQ st v s1).map JVal.num,
        encodeVectorMetadata (hdrOf st) iv
          (computeAuthHash st.vectorEncryptionKey st.approximationFactor iv
            ((ctQ st v s1).map JVal.num))) := by
  have hshuf : shuffle st.textEncryptionKey (v.map JVal.num) =
      (shuffle st.textEncryptionKey v).map JVal.num :=
    shuffleWith_map _ (rngFromKey_bounds _) _ v
  have hslen : (shuffle st.textEncryptionKey v).length = v.length :=
    shuffle_length _ v
  have hct : (List.range ((shuffle st.textEncryptionKey v).map JVal.num).length).map
      (fun i => jadd (jmul (.num st.vectorEncryptionKey.scalingFactor)
        (((shuffle st.textEncryptionKey v).map JVal.num).getD i default))
        ((s1.map JVal.num).getD i default)) = (ctQ st v s1).map JVal.num := by
    rw [List.length_map, hslen]
    unfold ctQ
    rw [List.map_map]
    apply List.map_congr_left
    intro i hi
    have hin : i < v.length := List.mem_range.mp hi
    rw [getD_map_lt JVal.num _ (by omega : i < (shuffle st.textEncryptionKey v).length)
      default 0]
    rw [getD_map_lt JVal.num s1 (by omega : i < s1.length) default 0]
    simp [jmul, jadd]
  have hnempty : ((shuffle st.textEncryptionKey v).map JVal.num).length ≠ 0 := by
    rw [List.length_map, hslen]
    exact fun h => hv (List.eq_nil_of_length_eq_zero h)
  have hfin : ((ctQ st v s1).map JVal.num).all JVal.isFinite = true := by
    apply List.all_eq_true.mpr
    intro x hx
    obtain ⟨q, _, rfl⟩ := List.mem_map.mp hx
    rfl
  unfold clientEncryptVector encryptVector generateNoiseVector
  rw [hshuf]
  simp only [if_neg hs, if_neg (not_le.mpr ha), if_neg hnempty, hct, if_pos hfin]
  rfl

/-- Decrypting the framed output of `clientEncryptVector_rat` with an
all-finite decrypt-side noise sample succeeds and returns the unshuffled
rational vector `wQ`. -/
theorem clientDecryptVector_rat (st : ClientState) (v s1 s2 : List ℚ) (iv : List ℕ)
    (hs : st.vectorEncryptionKey.scalingFactor ≠ 0)
    (ha : 0 < st.approximationFactor)
    (hv : v ≠ [])
    (hiv : iv.length = 12)
    (hs2 : s2.length = v.length) :
    clientDecryptVector st ((ctQ st v s1).map JVal.num)
      (encodeVectorMetadata (hdrOf st) iv
        (computeAuthHash st.vectorEncryptionKey st.approximationFactor iv
          ((ctQ st v s1).map JVal.num)))
      (s2.map JVal.num) =
      .ok ((unshuffle st.textEncryptionKey (wQ st v s1 s2)).map JVal.num) := by
  have hctlen : ((ctQ st v s1).map JVal.num).length = v.length := by
    simp [ctQ]
  set ah := computeAuthHash st.vectorEncryptionKey st.approximationFactor iv
    ((ctQ st v s1).map JVal.num) with hah
  have hahlen : ah.length = 32 := hmacSha256_length _ _
  unfold clientDecryptVector
  rw [decode_encodeVectorMetadata _ _ _ (hdrOf_keyId_lt st)]
  have htake : (iv ++ ah).take 12 = iv := by rw [← hiv, List.take_left]
  have hdrop : (iv ++ ah).drop 12 = ah := by rw [← hiv, List.drop_left]
  have hnempty : ((ctQ st v s1).map JVal.num).length ≠ 0 := by
    rw [hctlen]
    exact fun h => hv (List.eq_nil_of_length_eq_zero h)
  have hres : (List.range ((ctQ st v s1).map JVal.num).length).map
      (fun i => jdivq (jsub (((ctQ st v s1).map JVal.num).getD i default)
        ((s2.map JVal.num).getD i default)) st.vectorEncryptionKey.scalingFactor) =
      (wQ st v s1 s2).map JVal.num := by
    rw [hctlen]
    unfold wQ
    rw [List.map_map]
    apply List.map_congr_left
    intro i hi
    have hin : i < v.length := List.mem_range.mp hi
    rw [getD_map_lt JVal.num (ctQ st v s1) (by rw [← hctlen] at hin; simpa using hin) default 0]
    rw [getD_map_lt JVal.num s2 (by omega : i < s2.length) default 0]
    simp only [Function.comp_apply, jsub, JVal.neg, jadd, jdivq, if_neg hs]
  simp only [htake, hdrop, if_neg (show ¬ah.length ≠ 32 from by simp [hahlen])]
  unfold decryptVector generateNoiseVector
  simp only [if_neg hs,
    if_neg (show ¬(computeAuthHash st.vectorEncryptionKey st.approximationFactor iv
      ((ctQ st v s1).map JVal.num) ≠ ah) from fun hne => hne hah.symm),
    if_neg (not_le.mpr ha), if_neg hnempty, hres]
  exact congrArg Except.ok
    (unshuffleWith_map (rngFromKey st.textEncryptionKey) (rngFromKey_bounds _)
      JVal.num (wQ st v s1 s2))

/-- Each squared coordinate is at most the squared norm. -/
theorem sq_getD_le_normSq (l : List ℚ) {j : ℕ} (hj : j < l.length) :
    l.getD j 0 * l.getD j 0 ≤ normSq l := by
  rw [List.getD_eq_getElem l 0 hj]
  have hmem : l[j] * l[j] ∈ l.map (fun x => x * x) :=
    List.mem_map_of_mem _ (l.getElem_mem hj)
  exact List.single_le_sum (fun x hx => by
    obtain ⟨y, _, rfl⟩ := List.mem_map.mp hx
    exact mul_self_nonneg y) _ hmem

/-- A coordinate of a vector inside the ball of radius `c` has absolute
value at most `c`. -/
theorem abs_getD_le_of_normSq_le (l : List ℚ) {j : ℕ} (hj : j < l.length)
    {c : ℚ} (hc : 0 ≤ c) (h : normSq l ≤ c ^ 2) : |l.getD j 0| ≤ c := by
  have h1 := sq_getD_le_normSq l hj
  nlinarith [abs_nonneg (l.getD j 0), abs_mul_abs_self (l.getD j 0),
    sq_nonneg (|l.getD j 0| - c), sq_nonneg (|l.getD j 0| + c)]

/-- With a nonzero scaling factor and positive approximation factor, the
client rejects the empty vector inside noise generation. -/
theorem clientEncrypt_nil_error (st : ClientState) (iv : List ℕ) (sample : List JVal)
    (hs : st.vectorEncryptionKey.scalingFactor ≠ 0)
    (ha : 0 < st.approximationFactor) :
    clientEncryptVector st [] iv sample =
      .error (.plain "Dimensionality must be a positive integer") := by
  have hsh : shuffle st.textEncryptionKey ([] : List JVal) = [] :=
    List.eq_nil_of_length_eq_zero (by simp [shuffle_length])
  unfold clientEncryptVector encryptVector generateNoiseVector
  rw [hsh]
  simp [if_neg hs, if_neg (not_le.mpr ha)]

/-- Field equations of a successfully constructed client. -/
theorem mkClientWithKey_ok (key : List ℕ) (a : ℚ) (st : ClientState)
    (h : mkClientWithKey key a = .ok st) :
    st.vectorEncryptionKey = ⟨a, key⟩ ∧ st.textEncryptionKey = key ∧
      st.deterministicEncryptionKey = key ∧ st.approximationFactor = a := by
  unfold mkClientWithKey at h
  by_cases hk : key.length < 32
  · rw [if_pos hk] at h
    exact Except.noConfusion h
  · rw [if_neg hk] at h
    obtain rfl : st = ⟨⟨a, key⟩, key, key, a, "local-key", none, none, none⟩ :=
      (Except.ok.inj h).symm
    exact ⟨rfl, rfl, rfl, rfl⟩

/-- Pointwise description of the full client roundtrip on rational data:
output coordinate `i` is `v[i] + (s1[j] - s2[j]) / s` for the shuffled
position `j` belonging to `i`. -/
theorem roundtrip_getD (st : ClientState) (v s1 s2 : List ℚ)
    (hs : st.vectorEncryptionKey.scalingFactor ≠ 0)
    {i : ℕ} (hi : i < v.length) :
    ∃ j, j < v.length ∧
      (unshuffle st.textEncryptionKey (wQ st v s1 s2)).getD i 0 =
        v.getD i 0 +
          (s1.getD j 0 - s2.getD j 0) / st.vectorEncryptionKey.scalingFactor := by
  obtain ⟨σ, hfix, hrep⟩ :=
    fyIndices_rep (rngFromKey st.textEncryptionKey) v.length
      (rngFromKey_bounds st.textEncryptionKey)
  have hwlen : (wQ st v s1 s2).length = v.length := by simp [wQ]
  have hfix' : ∀ t, (wQ st v s1 s2).length ≤ t → σ t = t := by
    rw [hwlen]; exact hfix
  have hrep' : fyIndices (rngFromKey st.textEncryptionKey) (wQ st v s1 s2).length =
      (List.range (wQ st v s1 s2).length).map σ := by
    rw [hwlen]; exact hrep
  have hii : i < (wQ st v s1 s2).length := by omega
  have hsj : σ.symm i < v.length :=
    perm_lt_of_fixes σ.symm v.length (perm_symm_fixes σ v.length hfix) hi
  refine ⟨σ.symm i, hsj, ?_⟩
  have h1 : (unshuffle st.textEncryptionKey (wQ st v s1 s2)).getD i 0 =
      (wQ st v s1 s2).getD (σ.symm i) 0 :=
    unshuffleWith_getD_of_rep (rngFromKey st.textEncryptionKey) σ _ hfix' hrep' hii
  rw [h1]
  unfold wQ
  rw [getD_map_range _ hsj]
  unfold ctQ
  rw [getD_map_range _ hsj]
  have h2 : (shuffle st.textEncryptionKey v).getD (σ.symm i) 0 = v.getD (σ (σ.symm i)) 0 :=
    shuffleWith_getD_of_rep (rngFromKey st.textEncryptionKey) σ v hrep hsj
  rw [h2, σ.apply_symm_apply]
  field_simp
  ring

/-- The client vector roundtrip property with per-coordinate tolerance
`c · a`: for every client built from at-least-32-byte key material and
approximation factor `a > 0`, every finite plaintext vector, every
12-byte IV and all encrypt-side and decrypt-side noise samples drawn from
the noise ball of radius `s·a/4 = a²/4`, a successful
`encryptVector`/`decryptVector` roundtrip yields a vector of the
plaintext's length whose every coordinate is within `c · a` of the
corresponding plaintext coordinate. -/
def vectorRoundTripWithin (c : ℚ) : Prop :=
  ∀ (key : List ℕ) (a : ℚ) (v s1 s2 : List ℚ) (iv : List ℕ) (st : ClientState)
    (ct : List JVal) (meta : List ℕ) (w : List JVal),
    32 ≤ key.length → 0 < a → mkClientWithKey key a = .ok st → iv.length = 12 →
    s1.length = v.length → s2.length = v.length →
    normSq s1 ≤ (a * a / 4) ^ 2 → normSq s2 ≤ (a * a / 4) ^ 2 →
    clientEncryptVector st (v.map JVal.num) iv (s1.map JVal.num) = .ok (ct, meta) →
    clientDecryptVector st ct meta (s2.map JVal.num) = .ok w →
    w.length = v.length ∧
    ∀ i, i < v.length → ∃ q : ℚ, w.getD i default = JVal.num q ∧
      |q - v.getD i 0| ≤ c * a

/-- C1 (amended): the client vector roundtrip holds with per-coordinate
tolerance `a/2`, not the claimed `a/4` — decryption re-draws fresh noise,
so each of the two independently drawn noise vectors contributes up to
`s·a/4 / s = a/4` per coordinate, and the two contributions can add. -/
theorem vectorRoundTrip_half (key : List ℕ) (a : ℚ) (v s1 s2 : List ℚ)
    (iv : List ℕ) (st : ClientState) (ct : List JVal) (meta : List ℕ)
    (w : List JVal) (_hkey : 32 ≤ key.length) (ha : 0 < a)
    (hmk : mkClientWithKey key a = .ok st) (hiv : iv.length = 12)
    (hs1 : s1.length = v.length) (hs2 : s2.length = v.length)
    (hn1 : normSq s1 ≤ (a * a / 4) ^ 2) (hn2 : normSq s2 ≤ (a * a / 4) ^ 2)
    (henc : clientEncryptVector st (v.map JVal.num) iv (s1.map JVal.num) =
      .ok (ct, meta))
    (hdec : clientDecryptVector st ct meta (s2.map JVal.num) = .ok w) :
    w.length = v.length ∧
    ∀ i, i < v.length → ∃ q : ℚ, w.getD i default = JVal.num q ∧
      |q - v.getD i 0| ≤ 1 / 2 * a := by
  obtain ⟨hvk, htk, hdk, haf⟩ := mkClientWithKey_ok key a st hmk
  have hsf : st.vectorEncryptionKey.scalingFactor = a := by rw [hvk]
  have hs0 : st.vectorEncryptionKey.scalingFactor ≠ 0 := by
    rw [hsf]; exact ne_of_gt ha
  have ha' : 0 < st.approximationFactor := by rw [haf]; exact ha
  rcases List.eq_nil_or_concat v with rfl | hne
  · rw [show (([] : List ℚ).map JVal.num) = [] from rfl,
      clientEncrypt_nil_error st iv (s1.map JVal.num) hs0 ha'] at henc
    exact Except.noConfusion henc
  · have hv : v ≠ [] := by
      obtain ⟨l, b, rfl⟩ := hne
      simp
    rw [clientEncryptVector_rat st v s1 iv hs0 ha' hv hs1] at henc
    obtain ⟨hct, hmeta⟩ := Prod.mk.injEq .. ▸ (Except.ok.inj henc)
    subst hct
    subst hmeta
    rw [clientDecryptVector_rat st v s1 s2 iv hs0 ha' hv hiv hs2] at hdec
    obtain rfl := (Except.ok.inj hdec).symm
    have hulen : ((unshuffle st.textEncryptionKey (wQ st v s1 s2)).map JVal.num).length
        = v.length := by
      rw [List.length_map]
      rw [show unshuffle st.textEncryptionKey (wQ st v s1 s2) =
        unshuffleWith (rngFromKey st.textEncryptionKey) (wQ st v s1 s2) from rfl]
      rw [unshuffleWith_length]
      simp [wQ]
    refine ⟨hulen, fun i hi => ?_⟩
    have hulen' : (unshuffle st.textEncryptionKey (wQ st v s1 s2)).length = v.length := by
      rw [List.length_map] at hulen
      exact hulen
    refine ⟨(unshuffle st.textEncryptionKey (wQ st v s1 s2)).getD i 0, ?_, ?_⟩
    · rw [getD_map_lt JVal.num _ (by omega : i <
        (unshuffle st.textEncryptionKey (wQ st v s1 s2)).length) default 0]
    · obtain ⟨j, hj, hval⟩ := roundtrip_getD st v s1 s2 hs0 hi
      rw [hval, hsf]
      have hb1 : |s1.getD j 0| ≤ a * a / 4 :=
        abs_getD_le_of_normSq_le s1 (by omega) (by positivity) hn1
      have hb2 : |s2.getD j 0| ≤ a * a / 4 :=
        abs_getD_le_of_normSq_le s2 (by omega) (by positivity) hn2
      have hsub : |s1.getD j 0 - s2.getD j 0| ≤ a * a / 2 := by
        calc |s1.getD j 0 - s2.getD j 0| ≤ |s1.getD j 0| + |s2.getD j 0| :=
              abs_sub _ _
          _ ≤ a * a / 4 + a * a / 4 := add_le_add hb1 hb2
          _ = a * a / 2 := by ring
      have : |v.getD i 0 + (s1.getD j 0 - s2.getD j 0) / a - v.getD i 0| =
          |s1.getD j 0 - s2.getD j 0| / a := by
        rw [add_sub_cancel_left, abs_div, abs_of_pos ha]
      rw [this]
      rw [div_le_iff₀ ha]
      calc |s1.getD j 0 - s2.getD j 0| ≤ a * a / 2 := hsub
        _ = 1 / 2 * a * a := by ring

/-- Concrete 32-byte key material for counterexamples. -/
def cexKey : List ℕ := List.replicate 32 1

/-- The client built from `cexKey` with approximation factor 1. -/
def cexClient : ClientState :=
  ⟨⟨1, cexKey⟩, cexKey, cexKey, 1, "local-key", none, none, none⟩

/-- C1 counterexample: the claimed quarter tolerance fails. With
`a = s = 1`, plaintext `[0]`, encrypt-side noise `[3/16]` and decrypt-side
noise `[-3/16]` — both inside the noise ball of radius `s·a/4 = 1/4`, and
reachable by the sampler (`u = 3/4`, direction `±1`) — the decrypted
coordinate is `3/8 > 1/4`. -/
theorem vectorRoundTrip_quarter_false : ¬ vectorRoundTripWithin (1 / 4) := by
  intro h
  have hs0 : cexClient.vectorEncryptionKey.scalingFactor ≠ 0 := by
    norm_num [cexClient]
  have ha0 : (0 : ℚ) < cexClient.approximationFactor := by norm_num [cexClient]
  have hmk : mkClientWithKey cexKey 1 = .ok cexClient := rfl
  have henc := clientEncryptVector_rat cexClient [0] [3/16] (List.replicate 12 0)
    hs0 ha0 (by simp) rfl
  have hdec := clientDecryptVector_rat cexClient [0] [3/16] [-3/16]
    (List.replicate 12 0) hs0 ha0 (by simp) (by decide) rfl
  obtain ⟨hlen, htol⟩ := h cexKey 1 [0] [3/16] [-3/16] (List.replicate 12 0)
    cexClient _ _ _ (by decide) one_pos hmk (by decide) rfl rfl
    (by norm_num [normSq, List.map_cons, List.map_nil, List.sum_cons, List.sum_nil])
    (by norm_num [normSq, List.map_cons, List.map_nil, List.sum_cons, List.sum_nil])
    henc hdec
  obtain ⟨q, hq, hle⟩ := htol 0 (by norm_num)
  have hshufcex : shuffle cexClient.textEncryptionKey [(0 : ℚ)] = [0] := rfl
  have hwq : wQ cexClient [0] [3/16] [-3/16] = [3/8] := by
    unfold wQ ctQ
    rw [hshufcex]
    simp only [List.length_cons, List.length_nil, List.range_succ, List.range_zero,
      List.nil_append, List.map_cons, List.map_nil, List.getD_cons_zero]
    norm_num [cexClient]
  have hw : unshuffle cexClient.textEncryptionKey
      (wQ cexClient [0] [3/16] [-3/16]) = [3/8] := by
    rw [hwq]
    rfl
  rw [hw] at hq
  have hq' : JVal.num (3/8 : ℚ) = JVal.num q := by simpa using hq
  obtain rfl : (3/8 : ℚ) = q := JVal.num.inj hq'
  rw [show ([0] : List ℚ).getD 0 0 = 0 from rfl] at hle
  norm_num at hle
  rw [abs_of_nonneg (by norm_num : (0 : ℚ) ≤ 3 / 8)] at hle
  norm_num at hle

/-! ## Claim theorems -/

/-- C2: for every encryption key `k` and every array `x`,
`unshuffle(k, shuffle(k, x)) = x`; and the permutation applied by
`shuffle` depends only on the key and the array length, not on the array
contents: shuffling commutes with any contents map, and the shuffled
array is the index permutation `fyIndices` — a function of the key and
the length alone — applied to `x`. -/
theorem shuffle_inverse_and_content_independent {α β : Type} [Inhabited α]
    [Inhabited β] (key : List ℕ) (x : List α) (f : α → β) :
    unshuffle key (shuffle key x) = x ∧
    shuffle key (x.map f) = (shuffle key x).map f ∧
    shuffle key x = (fyIndices (rngFromKey key) x.length).map
      (fun i => x.getD i default) :=
  ⟨unshuffle_shuffle key x, shuffleWith_map _ (rngFromKey_bounds key) f x, rfl⟩

/-- C3: `encryptDeterministicText` is a deterministic function of the
pair (deterministic key, plaintext) — its definition consumes no
randomness, so clients agreeing on the key produce byte-identical blobs —
and the blob has the form `nonce(12) ‖ ciphertext(|pt|) ‖ tag(16)`. -/
theorem deterministic_text_byte_stable (st st' : ClientState) (pt : List ℕ)
    (hkey : st.deterministicEncryptionKey = st'.deterministicEncryptionKey) :
    encryptDeterministicText st pt = encryptDeterministicText st' pt ∧
    ∃ nonce ct tag, encryptDeterministicText st pt = nonce ++ ct ++ tag ∧
      nonce.length = 12 ∧ ct.length = pt.length ∧ tag.length = 16 := by
  constructor
  · unfold encryptDeterministicText
    rw [hkey]
  · refine ⟨_, _, _, rfl, ?_, ?_, ?_⟩
    · rw [List.length_take, hmacSha256_length]
      rfl
    · exact (aes256GcmEncrypt_length _ _ _).1
    · exact (aes256GcmEncrypt_length _ _ _).2

/-- Witness for C3 at a concrete client and plaintext. -/
theorem deterministic_text_byte_stable_witness :
    encryptDeterministicText cexClient [104, 105] =
      encryptDeterministicText cexClient [104, 105] ∧
    ∃ nonce ct tag, encryptDeterministicText cexClient [104, 105] =
      nonce ++ ct ++ tag ∧
      nonce.length = 12 ∧ ct.length = ([104, 105] : List ℕ).length ∧
      tag.length = 16 :=
  deterministic_text_byte_stable cexClient cexClient [104, 105] rfl

/-- C4: at a concrete failing input — scaling factor 1, approximation
factor 1, input vector `[Infinity]`, finite noise — the ciphertext has a
non-finite coordinate and `encryptVector` throws a bare
`Error("Overflow error: …")`, which is not a `DCPEError` (in particular
not the taxonomy's `OverflowError`, which would be one). -/
theorem overflow_error_is_plain :
    encryptVector ⟨1, cexKey⟩ 1 [JVal.inf] (List.replicate 12 0) [JVal.num 0] =
      .error (.plain "Overflow error: Embedding or approximation factor too large.") ∧
    (JsError.plain
      "Overflow error: Embedding or approximation factor too large.").isDCPE = false ∧
    (JsError.overflow "Embedding or approximation factor too large").isDCPE = true :=
  ⟨rfl, rfl, rfl⟩

/-- C5: a zero scaling factor makes both `encryptVector` and
`decryptVector` fail with `InvalidKeyError`, for every input vector,
ciphertext and approximation factor. -/
theorem zero_scaling_invalid_key (key : VectorEncryptionKey) (a : ℚ)
    (v ct smp1 smp2 : List JVal) (iv ah : List ℕ)
    (h : key.scalingFactor = 0) :
    encryptVector key a v iv smp1 =
      .error (.invalidKey "Scaling factor cannot be zero") ∧
    decryptVector key a ct iv ah smp2 =
      .error (.invalidKey "Scaling factor cannot be zero") := by
  unfold encryptVector decryptVector
  rw [if_pos h, if_pos h]
  exact ⟨rfl, rfl⟩

/-- Witness for C5 at a concrete zero-scaling key. -/
theorem zero_scaling_invalid_key_witness :
    encryptVector ⟨0, cexKey⟩ 1 [JVal.num 1] (List.replicate 12 0) [JVal.num 0] =
      .error (.invalidKey "Scaling factor cannot be zero") ∧
    decryptVector ⟨0, cexKey⟩ 1 [JVal.num 1] (List.replicate 12 0)
      (List.replicate 32 0) [JVal.num 0] =
      .error (.invalidKey "Scaling factor cannot be zero") :=
  zero_scaling_invalid_key ⟨0, cexKey⟩ 1 [JVal.num 1] [JVal.num 1]
    [JVal.num 0] [JVal.num 0] (List.replicate 12 0) (List.replicate 32 0) rfl

/-- C6: for every header with a key id in `[0, 2^32)`, every iv and every
32-byte auth hash, decoding the encoded metadata recovers the header and
`iv ‖ authHash`; parsing inverts serialisation; and the serialised header
is exactly 6 bytes ending in a zero byte. -/
theorem header_metadata_roundtrip (h : KeyIdHeader) (iv ah : List ℕ)
    (hk : h.keyId < 4294967296) (_hah : ah.length = 32) :
    decodeVersionPrefixedValue (encodeVectorMetadata h iv ah) = .ok (h, iv ++ ah) ∧
    KeyIdHeader.parseFromBytes h.writeToBytes = .ok h ∧
    h.writeToBytes.length = 6 ∧
    h.writeToBytes.getD 5 1 = 0 :=
  ⟨decode_encodeVectorMetadata h iv ah hk, parseFromBytes_writeToBytes h hk,
   writeToBytes_length h, writeToBytes_padding h⟩

/-- Witness for C6 at a concrete header, IV and auth hash. -/
theorem header_metadata_roundtrip_witness :
    decodeVersionPrefixedValue (encodeVectorMetadata
        ⟨42, .standalone, .vectorMetadata⟩ (List.replicate 12 7)
        (List.replicate 32 9)) =
      .ok (⟨42, .standalone, .vectorMetadata⟩,
        List.replicate 12 7 ++ List.replicate 32 9) ∧
    KeyIdHeader.parseFromBytes
      (KeyIdHeader.writeToBytes ⟨42, .standalone, .vectorMetadata⟩) =
      .ok ⟨42, .standalone, .vectorMetadata⟩ ∧
    (KeyIdHeader.writeToBytes ⟨42, .standalone, .vectorMetadata⟩).length = 6 ∧
    (KeyIdHeader.writeToBytes ⟨42, .standalone, .vectorMetadata⟩).getD 5 1 = 0 :=
  header_metadata_roundtrip ⟨42, .standalone, .vectorMetadata⟩
    (List.replicate 12 7) (List.replicate 32 9) (by norm_num) (by simp)

/-- C7: `unsafeBytesToKey` fails with `InvalidKeyError` on inputs shorter
than 35 bytes; on inputs of at least 35 bytes it returns the key whose
scaling factor is the big-endian u32 of `0x00 ‖ b[0..3]` and whose
encryption key is exactly the 32 bytes `b[3..35]`. -/
theorem bytesToKey_spec (keyBytes : List ℕ) :
    (keyBytes.length < 35 →
      bytesToKey keyBytes =
        .error (.invalidKey "Key bytes must be at least 35 bytes long")) ∧
    (35 ≤ keyBytes.length →
      bytesToKey keyBytes = .ok ⟨(readUInt32BE (0 :: keyBytes.take 3) : ℚ),
        (keyBytes.drop 3).take 32⟩ ∧
      ((keyBytes.drop 3).take 32).length = 32) := by
  constructor
  · intro hlt
    unfold bytesToKey
    rw [if_pos hlt]
  · intro hge
    refine ⟨?_, ?_⟩
    · unfold bytesToKey
      rw [if_neg (not_lt.mpr hge)]
    · rw [List.length_take, List.length_drop]
      omega

/-- Witness for C7 at a 10-byte input (rejected) and a 40-byte input
(accepted with the specified fields). -/
theorem bytesToKey_spec_witness :
    bytesToKey (List.replicate 10 0) =
      .error (.invalidKey "Key bytes must be at least 35 bytes long") ∧
    bytesToKey (List.range 40) = .ok ⟨(readUInt32BE (0 :: (List.range 40).take 3) : ℚ),
      ((List.range 40).drop 3).take 32⟩ :=
  ⟨(bytesToKey_spec (List.replicate 10 0)).1 (by simp),
   ((bytesToKey_spec (List.range 40)).2 (by simp)).1⟩

/-- Fresh 32-byte key material distinct from `cexKey`, for rotation. -/
def cexKey2 : List ℕ := List.replicate 32 2

/-- C8 counterexample: after a successful `rotateKey`, the client's
`_oldVectorEncryptionKey` / `_oldTextEncryptionKey` /
`_oldDeterministicEncryptionKey` fields reference exactly the
pre-rotation key triple, so the previous keys are retained (and they
differ from the new material). -/
theorem rotateKey_retains_old_triple :
    (rotateKey cexClient cexKey2).2 = none ∧
    (rotateKey cexClient cexKey2).1.oldVectorEncryptionKey =
      some cexClient.vectorEncryptionKey ∧
    (rotateKey cexClient cexKey2).1.oldTextEncryptionKey =
      some cexClient.textEncryptionKey ∧
    (rotateKey cexClient cexKey2).1.oldDeterministicEncryptionKey =
      some cexClient.deterministicEncryptionKey ∧
    cexClient.textEncryptionKey ≠ cexKey2 := by
  refine ⟨rfl, rfl, rfl, rfl, ?_⟩
  decide

/-- C8 (amended): a successful `rotateKey` replaces the current key
triple with the new material, but the previous triple is retained in the
`_old*` fields rather than dropped. -/
theorem rotateKey_spec (st : ClientState) (newKey : List ℕ)
    (h : 32 ≤ newKey.length) :
    (rotateKey st newKey).2 = none ∧
    (rotateKey st newKey).1.vectorEncryptionKey =
      ⟨st.approximationFactor, newKey⟩ ∧
    (rotateKey st newKey).1.textEncryptionKey = newKey ∧
    (rotateKey st newKey).1.deterministicEncryptionKey = newKey ∧
    (rotateKey st newKey).1.oldVectorEncryptionKey =
      some st.vectorEncryptionKey ∧
    (rotateKey st newKey).1.oldTextEncryptionKey = some st.textEncryptionKey ∧
    (rotateKey st newKey).1.oldDeterministicEncryptionKey =
      some st.deterministicEncryptionKey := by
  unfold rotateKey
  rw [if_neg (not_lt.mpr h)]
  exact ⟨rfl, rfl, rfl, rfl, rfl, rfl, rfl⟩

/-- Witness for the amended C8 at a concrete client and fresh key. -/
theorem rotateKey_spec_witness :
    (rotateKey cexClient cexKey2).2 = none ∧
    (rotateKey cexClient cexKey2).1.vectorEncryptionKey =
      ⟨cexClient.approximationFactor, cexKey2⟩ ∧
    (rotateKey cexClient cexKey2).1.textEncryptionKey = cexKey2 ∧
    (rotateKey cexClient cexKey2).1.deterministicEncryptionKey = cexKey2 ∧
    (rotateKey cexClient cexKey2).1.oldVectorEncryptionKey =
      some cexClient.vectorEncryptionKey ∧
    (rotateKey cexClient cexKey2).1.oldTextEncryptionKey =
      some cexClient.textEncryptionKey ∧
    (rotateKey cexClient cexKey2).1.oldDeterministicEncryptionKey =
      some cexClient.deterministicEncryptionKey :=
  rotateKey_spec cexClient cexKey2 (by simp [cexKey2])

/-- C9 counterexample: the reference does not accept a length-0 plaintext
vector — at a concrete valid client, `encryptVector` on `[]` fails with
the generic dimensionality-validation error instead of succeeding with
length-0 outputs. -/
theorem empty_vector_rejected :
    clientEncryptVector cexClient [] (List.replicate 12 0) [] =
      .error (.plain "Dimensionality must be a positive integer") :=
  clientEncrypt_nil_error cexClient (List.replicate 12 0) []
    (by norm_num [cexClient]) (by norm_num [cexClient])

/-- C9 (amended): for every client with a nonzero scaling factor and a
positive approximation factor, `encryptVector` on the empty vector fails
with the bare `Error("Dimensionality must be a positive integer")` from
noise-generation input validation. -/
theorem clientEncrypt_empty_rejected (st : ClientState) (iv : List ℕ)
    (sample : List JVal) (hs : st.vectorEncryptionKey.scalingFactor ≠ 0)
    (ha : 0 < st.approximationFactor) :
    clientEncryptVector st [] iv sample =
      .error (.plain "Dimensionality must be a positive integer") :=
  clientEncrypt_nil_error st iv sample hs ha

/-- Witness for the amended C9 at a concrete client. -/
theorem clientEncrypt_empty_rejected_witness :
    clientEncryptVector cexClient [] (List.replicate 12 1) [JVal.num 0] =
      .error (.plain "Dimensionality must be a positive integer") :=
  clientEncrypt_empty_rejected cexClient (List.replicate 12 1) [JVal.num 0]
    (by norm_num [cexClient]) (by norm_num [cexClient])

/-- C10: with a nonzero scaling factor, a non-empty vector and a
non-positive approximation factor, `encryptVector` fails with the bare
`Error` thrown by noise-generation input validation, which is not a
`DCPEError` of the error taxonomy. -/
theorem nonpositive_approx_plain_error (key : VectorEncryptionKey) (a : ℚ)
    (v smp : List JVal) (iv : List ℕ)
    (hs : key.scalingFactor ≠ 0) (_hv : v ≠ []) (ha : a ≤ 0) :
    encryptVector key a v iv smp =
      .error (.plain "Approximation factor must be a positive number") ∧
    (JsError.plain "Approximation factor must be a positive number").isDCPE
      = false := by
  refine ⟨?_, rfl⟩
  unfold encryptVector generateNoiseVector
  simp only [if_neg hs, if_pos ha]

/-- Witness for C10 at a concrete key, vector and `a = -1`. -/
theorem nonpositive_approx_plain_error_witness :
    encryptVector ⟨1, cexKey⟩ (-1) [JVal.num 1] (List.replicate 12 0)
      [JVal.num 0] =
      .error (.plain "Approximation factor must be a positive number") ∧
    (JsError.plain "Approximation factor must be a positive number").isDCPE
      = false :=
  nonpositive_approx_plain_error ⟨1, cexKey⟩ (-1) [JVal.num 1] [JVal.num 0]
    (List.replicate 12 0) (by norm_num) (by simp) (by norm_num)

/-- Witness for the amended C1 at the concrete counterexample data: the
roundtrip on plaintext `[0]` with noises `[3/16]`, `[-3/16]` lands at
`3/8`, within the `a/2` tolerance. -/
theorem vectorRoundTrip_half_witness :
    ((unshuffle cexClient.textEncryptionKey
        (wQ cexClient [0] [3/16] [-3/16])).map JVal.num).length =
      ([0] : List ℚ).length ∧
    ∀ i, i < ([0] : List ℚ).length → ∃ q : ℚ,
      ((unshuffle cexClient.textEncryptionKey
        (wQ cexClient [0] [3/16] [-3/16])).map JVal.num).getD i default =
        JVal.num q ∧
      |q - ([0] : List ℚ).getD i 0| ≤ 1 / 2 * 1 :=
  vectorRoundTrip_half cexKey 1 [0] [3/16] [-3/16] (List.replicate 12 0)
    cexClient _ _ _ (by decide) one_pos rfl (by decide) rfl rfl
    (by norm_num [normSq, List.map_cons, List.map_nil, List.sum_cons, List.sum_nil])
    (by norm_num [normSq, List.map_cons, List.map_nil, List.sum_cons, List.sum_nil])
    (clientEncryptVector_rat cexClient [0] [3/16] (List.replicate 12 0)
      (by norm_num [cexClient]) (by norm_num [cexClient]) (by simp) rfl)
    (clientDecryptVector_rat cexClient [0] [3/16] [-3/16] (List.replicate 12 0)
      (by norm_num [cexClient]) (by norm_num [cexClient]) (by simp) (by decide) rfl)

/-- Witness for C2 at a concrete key, array and contents map. -/
theorem shuffle_inverse_witness :
    unshuffle cexKey (shuffle cexKey [(1 : ℚ), 2, 3, 4, 5]) = [1, 2, 3, 4, 5] ∧
    shuffle cexKey (([(1 : ℚ), 2, 3, 4, 5]).map (fun q => q + 1)) =
      (shuffle cexKey [(1 : ℚ), 2, 3, 4, 5]).map (fun q => q + 1) ∧
    shuffle cexKey [(1 : ℚ), 2, 3, 4, 5] =
      (fyIndices (rngFromKey cexKey) ([(1 : ℚ), 2, 3, 4, 5]).length).map
        (fun i => ([(1 : ℚ), 2, 3, 4, 5]).getD i default) :=
  shuffle_inverse_and_content_independent cexKey [(1 : ℚ), 2, 3, 4, 5]
    (fun q => q + 1)
